import Mathlib

/-!
Verification development for the libcds core containers.

The development shallowly embeds the single-threaded semantics of the
library's non-intrusive containers:

* the memory-order conversion helpers
  (src/tests/test-hdr/misc/cxx11_convert_memory_order.h);
* the Michael-Scott and optimistic queues (src/cds/container/msqueue.h,
  src/cds/container/optimistic_queue.h);
* the lazy ordered list (src/cds/container/impl/lazy_list.h);
* the Ellen et al. binary search tree set
  (src/cds/container/impl/ellen_bintree_set.h).

The non-intrusive wrappers in src/ delegate the actual algorithms to the
intrusive layer (cds/intrusive/msqueue.h, cds/intrusive/lazy_list.h,
cds/intrusive/impl/ellen_bintree.h), which is not part of the source tree
here; those parts are modelled from the specification, as marked on each
definition.
-/

set_option maxHeartbeats 1000000

namespace LibCds

/-- Memory orders of the C++11 atomics interface (atomics::memory_order). -/
inductive MemOrder : Type where
  | relaxed
  | consume
  | acquire
  | release
  | acq_rel
  | seq_cst
  deriving DecidableEq

/-- Embeds misc::convert_to_store_order from
src/tests/test-hdr/misc/cxx11_convert_memory_order.h: the switch maps
acquire and consume to relaxed, acq_rel to release, and falls through to
the argument otherwise. -/
def convert_to_store_order : MemOrder → MemOrder
  | .acquire => .relaxed
  | .consume => .relaxed
  | .acq_rel => .release
  | o => o

/-- Embeds misc::convert_to_load_order from
src/tests/test-hdr/misc/cxx11_convert_memory_order.h: the switch maps
release to relaxed, acq_rel to acquire, and falls through otherwise. -/
def convert_to_load_order : MemOrder → MemOrder
  | .release => .relaxed
  | .acq_rel => .acquire
  | o => o

/-- Modelled from the spec: the intrusive Michael-Scott queue
(cds/intrusive/msqueue.h, not in src/). Section 4.7 of the spec describes
head/tail pointers into a chain of nodes starting at a sentinel; enqueue
links a fresh node after the tail, dequeue reads the value of head.next
and swings head, and the queue is empty when head = tail with a null next.
Sequentially this chain is exactly the list of enqueued, not yet dequeued
values in FIFO order, which is the state of this model. -/
structure MSQueueM (α : Type) where
  items : List α
  deriving DecidableEq

namespace MSQueueM

/-- A newly constructed queue (MSQueue::MSQueue initializes the empty
queue: head = tail = sentinel). -/
def new : MSQueueM α := ⟨[]⟩

/-- Modelled from the spec: intrusive::MSQueue::enqueue appends the node
at the tail; its CAS loop retries until the link succeeds, so the call
always returns true. The src wrapper MSQueue::enqueue then releases the
allocated node and also returns true. -/
def enqueue (q : MSQueueM α) (v : α) : Bool × MSQueueM α :=
  (true, ⟨q.items ++ [v]⟩)

/-- Embeds MSQueue::dequeue(dest) from src/cds/container/msqueue.h
(lines 251-275) over the spec-modelled intrusive do_dequeue: on a
non-empty queue the value of head.next is assigned to dest and head is
advanced; on an empty queue the function returns false and dest is not
touched. The components are (result, queue afterwards, dest afterwards). -/
def dequeue (q : MSQueueM α) (dest : α) : Bool × MSQueueM α × α :=
  match q.items with
  | [] => (false, q, dest)
  | x :: xs => (true, ⟨xs⟩, x)

/-- Modelled from the spec: intrusive::MSQueue::empty — the queue is empty
iff head = tail and head.next is null, i.e. the chain holds no values. -/
def isEmpty (q : MSQueueM α) : Bool :=
  q.items.isEmpty

/-- Enqueue a whole sequence of values, one enqueue call per element. -/
def enqueueAll (q : MSQueueM α) (vs : List α) : MSQueueM α :=
  vs.foldl (fun q v => (q.enqueue v).2) q

/-- Perform n successive dequeue calls (each with scratch destination d),
collecting each call's (result, dest afterwards) pair. -/
def dequeueN (d : α) : Nat → MSQueueM α → List (Bool × α) × MSQueueM α
  | 0, q => ([], q)
  | n + 1, q =>
    let r := q.dequeue d
    let rest := dequeueN d n r.2.1
    ((r.1, r.2.2) :: rest.1, rest.2)

end MSQueueM

/-- Modelled from the spec: the intrusive Ladan-Mozes/Shavit optimistic
queue (cds/intrusive/optimistic_queue.h, not in src/). Nodes additionally
carry a lazily-written prev pointer that fixList repairs, but per spec
section 4.7 the concurrency contract and the sequential value semantics
are identical to the Michael-Scott queue: the state is the FIFO list of
enqueued, not yet dequeued values. -/
structure OptQueueM (α : Type) where
  items : List α
  deriving DecidableEq

namespace OptQueueM

/-- A newly constructed optimistic queue. -/
def new : OptQueueM α := ⟨[]⟩

/-- Modelled from the spec: intrusive::OptimisticQueue::enqueue links the
fresh node at the tail (prev written lazily); the CAS loop retries until
success, so the call returns true. -/
def enqueue (q : OptQueueM α) (v : α) : Bool × OptQueueM α :=
  (true, ⟨q.items ++ [v]⟩)

/-- Embeds OptimisticQueue::dequeue(dest) from
src/cds/container/optimistic_queue.h (lines 272-296) over the
spec-modelled intrusive do_dequeue: false and untouched dest on an empty
queue, else the front value. -/
def dequeue (q : OptQueueM α) (dest : α) : Bool × OptQueueM α × α :=
  match q.items with
  | [] => (false, q, dest)
  | x :: xs => (true, ⟨xs⟩, x)

/-- Modelled from the spec: the optimistic queue is empty iff its chain
holds no values. -/
def isEmpty (q : OptQueueM α) : Bool :=
  q.items.isEmpty

/-- Enqueue a whole sequence of values. -/
def enqueueAll (q : OptQueueM α) (vs : List α) : OptQueueM α :=
  vs.foldl (fun q v => (q.enqueue v).2) q

/-- Perform n successive dequeue calls, collecting (result, dest) pairs. -/
def dequeueN (d : α) : Nat → OptQueueM α → List (Bool × α) × OptQueueM α
  | 0, q => ([], q)
  | n + 1, q =>
    let r := q.dequeue d
    let rest := dequeueN d n r.2.1
    ((r.1, r.2.2) :: rest.1, rest.2)

end OptQueueM

theorem MSQueueM.msEnqueueAll_eq (q : MSQueueM α) (vs : List α) :
    q.enqueueAll vs = ⟨q.items ++ vs⟩ := by
  induction vs generalizing q with
  | nil => simp [MSQueueM.enqueueAll]
  | cons v vs ih =>
    show ((⟨q.items ++ [v]⟩ : MSQueueM α).enqueueAll vs) = _
    rw [ih]
    simp

theorem MSQueueM.msDequeueN_all (d : α) (vs : List α) :
    MSQueueM.dequeueN d vs.length ⟨vs⟩
      = (vs.map (fun v => (true, v)), MSQueueM.new) := by
  induction vs with
  | nil => rfl
  | cons v vs ih =>
    simp only [MSQueueM.dequeueN, MSQueueM.dequeue, List.length_cons, List.map_cons]
    rw [ih]

theorem OptQueueM.optEnqueueAll_eq (q : OptQueueM α) (vs : List α) :
    q.enqueueAll vs = ⟨q.items ++ vs⟩ := by
  induction vs generalizing q with
  | nil => simp [OptQueueM.enqueueAll]
  | cons v vs ih =>
    show ((⟨q.items ++ [v]⟩ : OptQueueM α).enqueueAll vs) = _
    rw [ih]
    simp

theorem OptQueueM.optDequeueN_all (d : α) (vs : List α) :
    OptQueueM.dequeueN d vs.length ⟨vs⟩
      = (vs.map (fun v => (true, v)), OptQueueM.new) := by
  induction vs with
  | nil => rfl
  | cons v vs ih =>
    simp only [OptQueueM.dequeueN, OptQueueM.dequeue, List.length_cons, List.map_cons]
    rw [ih]

/-- C2: on a new Michael-Scott queue (and on the optimistic queue) used by
a single thread, after enqueue(v1), ..., enqueue(vn), n successive
dequeue calls each return true and yield v1, ..., vn in that order, and
the next dequeue returns false. -/
theorem c2_fifo_roundtrip (α : Type) (vs : List α) (d : α) :
    (MSQueueM.dequeueN d vs.length (MSQueueM.new.enqueueAll vs)).1
        = vs.map (fun v => (true, v))
    ∧ ((MSQueueM.dequeueN d vs.length (MSQueueM.new.enqueueAll vs)).2.dequeue d).1
        = false
    ∧ (OptQueueM.dequeueN d vs.length (OptQueueM.new.enqueueAll vs)).1
        = vs.map (fun v => (true, v))
    ∧ ((OptQueueM.dequeueN d vs.length (OptQueueM.new.enqueueAll vs)).2.dequeue d).1
        = false := by
  have hm : (MSQueueM.new.enqueueAll vs : MSQueueM α) = ⟨vs⟩ := by
    rw [MSQueueM.msEnqueueAll_eq]
    rfl
  have ho : (OptQueueM.new.enqueueAll vs : OptQueueM α) = ⟨vs⟩ := by
    rw [OptQueueM.optEnqueueAll_eq]
    rfl
  rw [hm, ho, MSQueueM.msDequeueN_all, OptQueueM.optDequeueN_all]
  exact ⟨rfl, rfl, rfl, rfl⟩

/-- C3: dequeue on any empty MSQueue or OptimisticQueue returns false and
leaves the output parameter dest unchanged (and the queue unchanged); a
newly constructed MS queue dequeues false and reports empty() = true. -/
theorem c3_empty_dequeue :
    (∀ (α : Type) (q : MSQueueM α) (d : α),
      q.isEmpty = true → q.dequeue d = (false, q, d))
    ∧ (∀ (α : Type) (q : OptQueueM α) (d : α),
      q.isEmpty = true → q.dequeue d = (false, q, d))
    ∧ (∀ (α : Type) (d : α),
      ((MSQueueM.new : MSQueueM α).dequeue d).1 = false
      ∧ (MSQueueM.new : MSQueueM α).isEmpty = true) := by
  refine ⟨?_, ?_, ?_⟩
  · intro α q d h
    obtain ⟨items⟩ := q
    cases items with
    | nil => rfl
    | cons x xs => simp [MSQueueM.isEmpty] at h
  · intro α q d h
    obtain ⟨items⟩ := q
    cases items with
    | nil => rfl
    | cons x xs => simp [OptQueueM.isEmpty] at h
  · intro α d
    exact ⟨rfl, rfl⟩

/-- Witness for C3: the empty-queue branch applied to the concrete empty
Nat queues with dest = 7. -/
theorem c3_empty_dequeue_witness :
    MSQueueM.dequeue (⟨[]⟩ : MSQueueM Nat) 7 = (false, ⟨[]⟩, 7)
    ∧ OptQueueM.dequeue (⟨[]⟩ : OptQueueM Nat) 7 = (false, ⟨[]⟩, 7) :=
  ⟨c3_empty_dequeue.1 Nat ⟨[]⟩ 7 rfl, c3_empty_dequeue.2.1 Nat ⟨[]⟩ 7 rfl⟩

/-! Lazy ordered list. The non-intrusive wrapper
src/cds/container/impl/lazy_list.h delegates to intrusive::LazyList
(cds/intrusive/lazy_list.h, not in src/). Sequentially the list is the
ascending chain of keys between the head and tail sentinels; the marked
bits and per-node locks only matter under concurrency. The state of the
model is that ascending chain. -/

/-- Modelled from the spec (section 4.8): lazy-list find walks from the
head until the current key is not less than the searched key and reports
a hit iff the keys are equal. -/
def llFind [LinearOrder α] : List α → α → Bool
  | [], _ => false
  | x :: xs, k => if x < k then llFind xs k else decide (x = k)

/-- Modelled from the spec (section 4.8): lazy-list insert locates the
first position whose key is not less than the new key; if that key equals
the new key the insert fails, otherwise the new node is linked there.
Returns (result, list afterwards). -/
def llInsert [LinearOrder α] : List α → α → Bool × List α
  | [], k => (true, [k])
  | x :: xs, k =>
    if x < k then
      let r := llInsert xs k
      (r.1, x :: r.2)
    else if x = k then (false, x :: xs)
    else (true, k :: x :: xs)

/-- Modelled from the spec (section 4.8): lazy-list remove locates the
node with the searched key, marks and unlinks it; absent keys report
false. Returns (result, list afterwards). -/
def llErase [LinearOrder α] : List α → α → Bool × List α
  | [], _ => (false, [])
  | x :: xs, k =>
    if x < k then
      let r := llErase xs k
      (r.1, x :: r.2)
    else if x = k then (true, xs)
    else (false, x :: xs)

/-- Embeds LazyList::insert_at(head, key, f) from
src/cds/container/impl/lazy_list.h (lines 767-777) over the spec-modelled
intrusive insert: the post-link initializer functor is invoked on the new
item inside the successful linking branch and nowhere else. The third
component records the keys of the items the functor was invoked on. -/
def llInsertF [LinearOrder α] : List α → α → Bool × List α × List α
  | [], k => (true, [k], [k])
  | x :: xs, k =>
    if x < k then
      let r := llInsertF xs k
      (r.1, x :: r.2.1, r.2.2)
    else if x = k then (false, x :: xs, [])
    else (true, k :: x :: xs, [k])

/-- Embeds LazyList::ensure_at(head, key, f) from
src/cds/container/impl/lazy_list.h (lines 791-802) over the spec-modelled
intrusive ensure_at: if the key is absent a new item is linked and the
functor runs on it with bNew = true; if the key is present the functor
runs on the existing item with bNew = false and nothing is linked. The
components are (returned pair, list afterwards, functor invocations as
(bNew, item key) records). -/
def llEnsure [LinearOrder α] : List α → α → (Bool × Bool) × List α × List (Bool × α)
  | [], k => ((true, true), [k], [(true, k)])
  | x :: xs, k =>
    if x < k then
      let r := llEnsure xs k
      (r.1, x :: r.2.1, r.2.2)
    else if x = k then ((true, false), x :: xs, [(false, x)])
    else ((true, true), k :: x :: xs, [(true, k)])

theorem llFind_iff_mem [LinearOrder α] (s : List α) (k : α)
    (hs : List.Sorted (· < ·) s) : llFind s k = true ↔ k ∈ s := by
  induction s with
  | nil => simp [llFind]
  | cons x xs ih =>
    rw [List.sorted_cons] at hs
    by_cases hlt : x < k
    · have hne : k ≠ x := fun h => absurd (h ▸ hlt) (lt_irrefl k)
      simp [llFind, hlt, ih hs.2, hne]
    · constructor
      · intro h
        simp [llFind, hlt] at h
        simp [h]
      · intro h
        rcases List.mem_cons.mp h with h | h
        · simp [llFind, hlt, h]
        · exact absurd (hs.1 k h) hlt

theorem llInsert_fst [LinearOrder α] (s : List α) (k : α) :
    (llInsert s k).1 = !(llFind s k) := by
  induction s with
  | nil => rfl
  | cons x xs ih =>
    by_cases hlt : x < k
    · simp [llInsert, llFind, hlt, ih]
    · by_cases he : x = k
      · simp [llInsert, llFind, hlt, he]
      · simp [llInsert, llFind, hlt, he]

theorem llInsert_mem [LinearOrder α] (s : List α) (k : α) (y : α) :
    y ∈ (llInsert s k).2 ↔ y = k ∨ y ∈ s := by
  induction s with
  | nil => simp [llInsert]
  | cons x xs ih =>
    by_cases hlt : x < k
    · simp only [llInsert, if_pos hlt, List.mem_cons, ih]
      tauto
    · by_cases he : x = k
      · subst he
        have hins : llInsert (x :: xs) x = (false, x :: xs) := by
          simp [llInsert, hlt]
        rw [hins]
        simp only [List.mem_cons]
        tauto
      · simp only [llInsert, if_neg hlt, if_neg he, List.mem_cons]

theorem llInsert_sorted [LinearOrder α] (s : List α) (k : α)
    (hs : List.Sorted (· < ·) s) : List.Sorted (· < ·) (llInsert s k).2 := by
  induction s with
  | nil => simp [llInsert]
  | cons x xs ih =>
    rw [List.sorted_cons] at hs
    by_cases hlt : x < k
    · simp only [llInsert, if_pos hlt]
      rw [List.sorted_cons]
      refine ⟨?_, ih hs.2⟩
      intro b hb
      rcases (llInsert_mem xs k b).mp hb with h | h
      · exact h ▸ hlt
      · exact hs.1 b h
    · by_cases he : x = k
      · simp only [llInsert, if_neg hlt, if_pos he]
        rw [List.sorted_cons]
        exact hs
      · have hk : k < x := lt_of_le_of_ne (not_lt.mp hlt) (fun h => he h.symm)
        simp only [llInsert, if_neg hlt, if_neg he]
        rw [List.sorted_cons]
        refine ⟨?_, List.sorted_cons.mpr hs⟩
        intro b hb
        rcases List.mem_cons.mp hb with h | h
        · exact h ▸ hk
        · exact lt_trans hk (hs.1 b h)

theorem llErase_fst [LinearOrder α] (s : List α) (k : α) :
    (llErase s k).1 = llFind s k := by
  induction s with
  | nil => rfl
  | cons x xs ih =>
    by_cases hlt : x < k
    · simp [llErase, llFind, hlt, ih]
    · by_cases he : x = k
      · simp [llErase, llFind, hlt, he]
      · simp [llErase, llFind, hlt, he]

theorem llErase_mem [LinearOrder α] (s : List α) (k : α)
    (hs : List.Sorted (· < ·) s) (y : α) :
    y ∈ (llErase s k).2 ↔ y ∈ s ∧ y ≠ k := by
  induction s with
  | nil => simp [llErase]
  | cons x xs ih =>
    rw [List.sorted_cons] at hs
    by_cases hlt : x < k
    · have hne : x ≠ k := ne_of_lt hlt
      simp only [llErase, if_pos hlt, List.mem_cons, ih hs.2]
      constructor
      · rintro (h | ⟨h1, h2⟩)
        · exact ⟨Or.inl h, h ▸ hne⟩
        · exact ⟨Or.inr h1, h2⟩
      · rintro ⟨h1 | h1, h2⟩
        · exact Or.inl h1
        · exact Or.inr ⟨h1, h2⟩
    · by_cases he : x = k
      · subst he
        simp only [llErase, if_neg hlt, if_pos rfl, List.mem_cons]
        constructor
        · intro h
          exact ⟨Or.inr h, ne_of_gt (hs.1 y h)⟩
        · rintro ⟨h1 | h1, h2⟩
          · exact absurd h1 h2
          · exact h1
      · have hk : k < x := lt_of_le_of_ne (not_lt.mp hlt) (fun h => he h.symm)
        simp only [llErase, if_neg hlt, if_neg he, List.mem_cons]
        constructor
        · rintro (h | h)
          · exact ⟨Or.inl h, h ▸ (ne_of_gt hk)⟩
          · exact ⟨Or.inr h, ne_of_gt (lt_trans hk (hs.1 y h))⟩
        · rintro ⟨h1 | h1, _⟩
          · exact Or.inl h1
          · exact Or.inr h1

theorem llErase_sublist [LinearOrder α] (s : List α) (k : α) :
    List.Sublist (llErase s k).2 s := by
  induction s with
  | nil => simp [llErase]
  | cons x xs ih =>
    by_cases hlt : x < k
    · simp only [llErase, if_pos hlt]
      exact List.Sublist.cons₂ x ih
    · by_cases he : x = k
      · simp only [llErase, if_neg hlt, if_pos he]
        exact List.sublist_cons_self x xs
      · simp [llErase, hlt, he]

theorem llErase_sorted [LinearOrder α] (s : List α) (k : α)
    (hs : List.Sorted (· < ·) s) : List.Sorted (· < ·) (llErase s k).2 :=
  List.Pairwise.sublist (llErase_sublist s k) hs

/-- A single-threaded set operation: insert a key or erase a key. -/
inductive SOp (α : Type) where
  | ins : α → SOp α
  | del : α → SOp α
  deriving DecidableEq

/-- Run a sequence of operations against a container given by its insert
and erase functions, collecting each operation's boolean result next to
the operation. -/
def runTrace (insF delF : σ → α → Bool × σ) :
    σ → List (SOp α) → σ × List (SOp α × Bool)
  | s, [] => (s, [])
  | s, op :: rest =>
    let r := match op with
      | SOp.ins k => insF s k
      | SOp.del k => delF s k
    let t := runTrace insF delF r.2 rest
    (t.1, (op, r.1) :: t.2)

/-- Net count for key k over a result trace: number of successful inserts
of k minus number of successful erases of k. -/
def netCount [DecidableEq α] (k : α) : List (SOp α × Bool) → Int
  | [] => 0
  | (op, ok) :: rest =>
    (match op with
      | SOp.ins j => if ok = true ∧ j = k then (1 : Int) else 0
      | SOp.del j => if ok = true ∧ j = k then (-1 : Int) else 0)
    + netCount k rest

/-- Membership indicator of key k in a container state, as an integer. -/
def memInd (fndF : σ → α → Bool) (s : σ) (k : α) : Int :=
  if fndF s k = true then 1 else 0

/-- Net-count bookkeeping lemma: for any container whose insert succeeds
exactly on absent keys and adds exactly the inserted key, and whose erase
succeeds exactly on present keys and removes exactly the erased key
(under an invariant I preserved by both), running any operation sequence
changes the membership indicator of every key by exactly the net count of
that key over the produced trace. -/
theorem runTrace_memInd [DecidableEq α]
    (insF delF : σ → α → Bool × σ) (fndF : σ → α → Bool) (I : σ → Prop)
    (hins1 : ∀ s k, I s → (insF s k).1 = !(fndF s k))
    (hins2 : ∀ s k j, I s →
      fndF (insF s k).2 j = (fndF s j || decide (j = k)))
    (hins3 : ∀ s k, I s → I (insF s k).2)
    (hdel1 : ∀ s k, I s → (delF s k).1 = fndF s k)
    (hdel2 : ∀ s k j, I s →
      fndF (delF s k).2 j = (fndF s j && !(decide (j = k))))
    (hdel3 : ∀ s k, I s → I (delF s k).2) :
    ∀ (ops : List (SOp α)) (s : σ), I s → ∀ k,
      memInd fndF (runTrace insF delF s ops).1 k
        = memInd fndF s k + netCount k (runTrace insF delF s ops).2 := by
  intro ops
  induction ops with
  | nil =>
    intro s hI k
    simp [runTrace, netCount]
  | cons op rest ih =>
    intro s hI k
    cases op with
    | ins k0 =>
      have h1 := hins1 s k0 hI
      have h2 := hins2 s k0 k hI
      have h3 := ih (insF s k0).2 (hins3 s k0 hI) k
      simp only [runTrace, netCount]
      rw [h3, h1]
      have hstep : memInd fndF (insF s k0).2 k
          = memInd fndF s k
            + (if (!(fndF s k0)) = true ∧ k0 = k then (1 : Int) else 0) := by
        by_cases hk : k = k0
        · subst hk
          simp only [memInd, h2, decide_eq_true_eq]
          cases hf : fndF s k <;> simp
        · have hk2 : k0 ≠ k := fun h => hk h.symm
          simp only [memInd, h2]
          rw [decide_eq_false hk]
          simp [hk2]
      rw [hstep]
      ring
    | del k0 =>
      have h1 := hdel1 s k0 hI
      have h2 := hdel2 s k0 k hI
      have h3 := ih (delF s k0).2 (hdel3 s k0 hI) k
      simp only [runTrace, netCount]
      rw [h3, h1]
      have hstep : memInd fndF (delF s k0).2 k
          = memInd fndF s k
            + (if fndF s k0 = true ∧ k0 = k then (-1 : Int) else 0) := by
        by_cases hk : k = k0
        · subst hk
          simp only [memInd, h2, decide_eq_true_eq]
          cases hf : fndF s k <;> simp
        · have hk2 : k0 ≠ k := fun h => hk h.symm
          simp only [memInd, h2]
          rw [decide_eq_false hk]
          simp [hk2]
      rw [hstep]
      ring

/-! Ellen et al. binary search tree set. The non-intrusive wrapper
src/cds/container/impl/ellen_bintree_set.h delegates to
intrusive::EllenBinTree (cds/intrusive/impl/ellen_bintree.h, not in
src/). Per spec section 4.10, the tree is leaf-oriented: user keys live
only in leaves, internal nodes hold routing keys and have exactly two
children, search branches left when the searched key is less than the
routing key and right otherwise, and the empty tree consists only of
sentinel infinity leaves. Sequentially the update descriptors are always
Clean between operations, so the model is the tree shape itself; the
empty tree (only sentinels) is represented by an empty root option. -/

/-- Modelled from the spec (section 4.10): a non-empty leaf-oriented
Ellen tree — a leaf holding one user key, or an internal node with a
routing key and exactly two children. -/
inductive ETree (α : Type) where
  | lf : α → ETree α
  | nd : α → ETree α → ETree α → ETree α
  deriving DecidableEq

namespace ETree

/-- The in-order sequence of leaf keys of a tree, i.e. the keys currently
stored in the set. -/
def leafSeq : ETree α → List α
  | .lf k => [k]
  | .nd _ l r => l.leafSeq ++ r.leafSeq

/-- Modelled from the spec (section 4.10): Search(k) walks from the root
branching left when k is less than the routing key and right otherwise,
terminating at a leaf; find reports whether that leaf holds k. -/
def findT [LinearOrder α] : ETree α → α → Bool
  | .lf j, k => decide (j = k)
  | .nd key l r, k => if k < key then l.findT k else r.findT k

/-- Modelled from the spec (section 4.10): Insert(k) searches to a leaf;
if the leaf holds k the insert fails; otherwise the leaf is replaced by a
new internal node whose routing key is the larger of the two keys, with
the smaller key as left leaf and the larger as right leaf. -/
def insertT [LinearOrder α] : ETree α → α → Bool × ETree α
  | .lf j, k =>
    if j = k then (false, .lf j)
    else if k < j then (true, .nd j (.lf k) (.lf j))
    else (true, .nd k (.lf j) (.lf k))
  | .nd key l r, k =>
    if k < key then
      let res := l.insertT k
      (res.1, .nd key res.2 r)
    else
      let res := r.insertT k
      (res.1, .nd key l res.2)

/-- Modelled from the spec (section 4.10): Delete(k) searches to a leaf;
if the leaf does not hold k the delete fails; otherwise the leaf's parent
is replaced by the leaf's sibling (none is returned when the removed leaf
was the whole tree). -/
def removeT [LinearOrder α] : ETree α → α → Bool × Option (ETree α)
  | .lf j, k => if j = k then (true, none) else (false, some (.lf j))
  | .nd key l r, k =>
    if k < key then
      match l.removeT k with
      | (b, none) => (b, some r)
      | (b, some l2) => (b, some (.nd key l2 r))
    else
      match r.removeT k with
      | (b, none) => (b, some l)
      | (b, some r2) => (b, some (.nd key l r2))

/-- Modelled from the spec (section 4.10): extract_min locates the
leftmost leaf and removes it, returning the key observed there; the
removed leaf's parent is replaced by its sibling. -/
def extractMinT : ETree α → α × Option (ETree α)
  | .lf k => (k, none)
  | .nd key l r =>
    match l.extractMinT with
    | (m, none) => (m, some r)
    | (m, some l2) => (m, some (.nd key l2 r))

/-- Modelled from the spec (section 4.10): extract_max locates the
rightmost leaf and removes it. -/
def extractMaxT : ETree α → α × Option (ETree α)
  | .lf k => (k, none)
  | .nd key l r =>
    match r.extractMaxT with
    | (m, none) => (m, some l)
    | (m, some r2) => (m, some (.nd key l r2))

/-- Structural invariant of the Ellen tree (spec section 3, global
invariants): below an internal node with routing key key, every leaf key
on the left is less than key and every leaf key on the right is at least
key. -/
def wfB [LinearOrder α] : ETree α → Bool
  | .lf _ => true
  | .nd key l r =>
    l.leafSeq.all (fun x => decide (x < key))
      && r.leafSeq.all (fun x => decide (key ≤ x))
      && l.wfB && r.wfB

/-- Variant of insertT that also records the keys the post-link
initializer functor was invoked on, mirroring EllenBinTreeSet::insert
with functor from src/cds/container/impl/ellen_bintree_set.h (lines
228-237): the functor runs on the new leaf inside the successful linking
branch and nowhere else. -/
def insertTF [LinearOrder α] : ETree α → α → Bool × ETree α × List α
  | .lf j, k =>
    if j = k then (false, .lf j, [])
    else if k < j then (true, .nd j (.lf k) (.lf j), [k])
    else (true, .nd k (.lf j) (.lf k), [k])
  | .nd key l r, k =>
    if k < key then
      let res := l.insertTF k
      (res.1, .nd key res.2.1 r, res.2.2)
    else
      let res := r.insertTF k
      (res.1, .nd key l res.2.1, res.2.2)

/-- Modelled from the spec: the intrusive ensure on the Ellen tree —
insert the key if absent (functor invoked with bNew = true on the new
leaf), otherwise invoke the functor with bNew = false on the existing
leaf and change nothing. Components: (returned pair, tree afterwards,
functor invocations as (bNew, item key) records). -/
def ensureT [LinearOrder α] :
    ETree α → α → (Bool × Bool) × ETree α × List (Bool × α)
  | .lf j, k =>
    if j = k then ((true, false), .lf j, [(false, j)])
    else if k < j then ((true, true), .nd j (.lf k) (.lf j), [(true, k)])
    else ((true, true), .nd k (.lf j) (.lf k), [(true, k)])
  | .nd key l r, k =>
    if k < key then
      let res := l.ensureT k
      (res.1, .nd key res.2.1 r, res.2.2)
    else
      let res := r.ensureT k
      (res.1, .nd key l res.2.1, res.2.2)

end ETree

/-- The EllenBinTreeSet state: an optional non-empty tree. A missing root
models the freshly constructed tree that holds only sentinel leaves. -/
structure EllenSet (α : Type) where
  root : Option (ETree α)
  deriving DecidableEq

namespace EllenSet

/-- A newly constructed, empty set. -/
def new : EllenSet α := ⟨none⟩

/-- The keys currently stored in the set. -/
def keys (s : EllenSet α) : List α :=
  match s.root with
  | none => []
  | some t => t.leafSeq

/-- Structural invariant lifted to the optional root. -/
def wfS [LinearOrder α] (s : EllenSet α) : Bool :=
  match s.root with
  | none => true
  | some t => t.wfB

/-- EllenBinTreeSet::find over the spec-modelled tree search. -/
def find [LinearOrder α] (s : EllenSet α) (k : α) : Bool :=
  match s.root with
  | none => false
  | some t => t.findT k

/-- EllenBinTreeSet::insert (src lines 201-210) over the spec-modelled
tree insert: inserting into the empty tree always succeeds. -/
def insert [LinearOrder α] (s : EllenSet α) (k : α) : Bool × EllenSet α :=
  match s.root with
  | none => (true, ⟨some (.lf k)⟩)
  | some t =>
    let r := t.insertT k
    (r.1, ⟨some r.2⟩)

/-- EllenBinTreeSet::erase over the spec-modelled tree delete: erasing
from the empty tree fails. -/
def erase [LinearOrder α] (s : EllenSet α) (k : α) : Bool × EllenSet α :=
  match s.root with
  | none => (false, s)
  | some t =>
    let r := t.removeT k
    (r.1, ⟨r.2⟩)

/-- EllenBinTreeSet::insert with functor (src lines 228-237) over the
spec-modelled tree insert, recording functor invocations. -/
def insertF [LinearOrder α] (s : EllenSet α) (k : α) :
    Bool × EllenSet α × List α :=
  match s.root with
  | none => (true, ⟨some (.lf k)⟩, [k])
  | some t =>
    let r := t.insertTF k
    (r.1, ⟨some r.2.1⟩, r.2.2)

/-- EllenBinTreeSet::ensure (src lines 270-279) over the spec-modelled
tree ensure, recording functor invocations as (bNew, item key) records. -/
def ensure [LinearOrder α] (s : EllenSet α) (k : α) :
    (Bool × Bool) × EllenSet α × List (Bool × α) :=
  match s.root with
  | none => ((true, true), ⟨some (.lf k)⟩, [(true, k)])
  | some t =>
    let r := t.ensureT k
    (r.1, ⟨some r.2.1⟩, r.2.2)

/-- EllenBinTreeSet::extract_min (src lines 364-381) over the
spec-modelled tree: on the empty set the call returns false and leaves
the guarded-pointer result untouched; otherwise the leftmost leaf is
removed and its key returned. Components: (result, set afterwards,
guarded pointer afterwards). -/
def extract_min [LinearOrder α] (s : EllenSet α) (res : Option α) :
    Bool × EllenSet α × Option α :=
  match s.root with
  | none => (false, s, res)
  | some t =>
    let r := t.extractMinT
    (true, ⟨r.2⟩, some r.1)

/-- EllenBinTreeSet::extract_max (src lines 383-400) over the
spec-modelled tree: symmetric to extract_min on the rightmost leaf. -/
def extract_max [LinearOrder α] (s : EllenSet α) (res : Option α) :
    Bool × EllenSet α × Option α :=
  match s.root with
  | none => (false, s, res)
  | some t =>
    let r := t.extractMaxT
    (true, ⟨r.2⟩, some r.1)

/-- Repeatedly call extract_min with fuel n, collecting the extracted
values in call order; stops when a call returns false. -/
def drainMin [LinearOrder α] : Nat → EllenSet α → List α
  | 0, _ => []
  | n + 1, s =>
    let r := s.extract_min none
    if r.1 then
      match r.2.2 with
      | some v => v :: drainMin n r.2.1
      | none => []
    else []

/-- Repeatedly call extract_max with fuel n, collecting the extracted
values in call order. -/
def drainMax [LinearOrder α] : Nat → EllenSet α → List α
  | 0, _ => []
  | n + 1, s =>
    let r := s.extract_max none
    if r.1 then
      match r.2.2 with
      | some v => v :: drainMax n r.2.1
      | none => []
    else []

end EllenSet

theorem ETree.wfB_nd [LinearOrder α] (key : α) (l r : ETree α) :
    (ETree.nd key l r).wfB = true
      ↔ (∀ x ∈ l.leafSeq, x < key) ∧ (∀ x ∈ r.leafSeq, key ≤ x)
        ∧ l.wfB = true ∧ r.wfB = true := by
  simp [ETree.wfB, List.all_eq_true, and_assoc]

theorem ETree.findT_iff_mem [LinearOrder α] (t : ETree α) (k : α)
    (h : t.wfB = true) : t.findT k = true ↔ k ∈ t.leafSeq := by
  induction t with
  | lf j => simp [ETree.findT, ETree.leafSeq, eq_comm]
  | nd key l r ihl ihr =>
    rw [ETree.wfB_nd] at h
    obtain ⟨hl, hr, hwl, hwr⟩ := h
    by_cases hk : k < key
    · simp only [ETree.findT, if_pos hk, ETree.leafSeq, List.mem_append]
      rw [ihl hwl]
      constructor
      · exact Or.inl
      · rintro (h | h)
        · exact h
        · exact absurd hk (not_lt.mpr (hr k h))
    · simp only [ETree.findT, if_neg hk, ETree.leafSeq, List.mem_append]
      rw [ihr hwr]
      constructor
      · exact Or.inr
      · rintro (h | h)
        · exact absurd (hl k h) hk
        · exact h

theorem ETree.insertT_fst [LinearOrder α] (t : ETree α) (k : α) :
    (t.insertT k).1 = !(t.findT k) := by
  induction t with
  | lf j =>
    by_cases hj : j = k
    · simp [ETree.insertT, ETree.findT, hj]
    · by_cases hk : k < j <;> simp [ETree.insertT, ETree.findT, hj, hk]
  | nd key l r ihl ihr =>
    by_cases hk : k < key <;> simp [ETree.insertT, ETree.findT, hk, ihl, ihr]

theorem ETree.insertT_mem [LinearOrder α] (t : ETree α) (k y : α) :
    y ∈ (t.insertT k).2.leafSeq ↔ y = k ∨ y ∈ t.leafSeq := by
  induction t with
  | lf j =>
    by_cases hj : j = k
    · subst hj
      simp [ETree.insertT, ETree.leafSeq]
    · by_cases hk : k < j
      · simp only [ETree.insertT, if_neg hj, if_pos hk, ETree.leafSeq,
          List.mem_append, List.mem_cons, List.not_mem_nil, or_false]
      · simp only [ETree.insertT, if_neg hj, if_neg hk, ETree.leafSeq,
          List.mem_append, List.mem_cons, List.not_mem_nil, or_false]
        tauto
  | nd key l r ihl ihr =>
    by_cases hk : k < key
    · simp only [ETree.insertT, if_pos hk, ETree.leafSeq, List.mem_append, ihl]
      tauto
    · simp only [ETree.insertT, if_neg hk, ETree.leafSeq, List.mem_append, ihr]
      tauto

theorem ETree.insertT_wf [LinearOrder α] (t : ETree α) (k : α)
    (h : t.wfB = true) : (t.insertT k).2.wfB = true := by
  induction t with
  | lf j =>
    by_cases hj : j = k
    · simpa [ETree.insertT, hj] using h
    · by_cases hk : k < j
      · simp [ETree.insertT, hj, hk, ETree.wfB, ETree.leafSeq]
      · have hjk : j < k := lt_of_le_of_ne (not_lt.mp hk) hj
        simp [ETree.insertT, hj, hk, ETree.wfB, ETree.leafSeq, le_of_lt hjk, hjk]
  | nd key l r ihl ihr =>
    rw [ETree.wfB_nd] at h
    obtain ⟨hl, hr, hwl, hwr⟩ := h
    by_cases hk : k < key
    · simp only [ETree.insertT, if_pos hk]
      rw [ETree.wfB_nd]
      refine ⟨?_, hr, ihl hwl, hwr⟩
      intro x hx
      rcases (ETree.insertT_mem l k x).mp hx with h | h
      · exact h ▸ hk
      · exact hl x h
    · simp only [ETree.insertT, if_neg hk]
      rw [ETree.wfB_nd]
      refine ⟨hl, ?_, hwl, ihr hwr⟩
      intro x hx
      rcases (ETree.insertT_mem r k x).mp hx with h | h
      · exact h ▸ (not_lt.mp hk)
      · exact hr x h

theorem ETree.leafSeq_sorted [LinearOrder α] (t : ETree α)
    (h : t.wfB = true) : List.Sorted (· < ·) t.leafSeq := by
  induction t with
  | lf j => simp [ETree.leafSeq]
  | nd key l r ihl ihr =>
    rw [ETree.wfB_nd] at h
    obtain ⟨hl, hr, hwl, hwr⟩ := h
    rw [ETree.leafSeq]
    show List.Pairwise (· < ·) (l.leafSeq ++ r.leafSeq)
    rw [List.pairwise_append]
    exact ⟨ihl hwl, ihr hwr, fun x hx y hy => lt_of_lt_of_le (hl x hx) (hr y hy)⟩

/-- Leaf keys of an optional tree (the empty tree has none). -/
def leafSeqO : Option (ETree α) → List α
  | none => []
  | some t => t.leafSeq

/-- Structural invariant of an optional tree. -/
def wfO [LinearOrder α] : Option (ETree α) → Bool
  | none => true
  | some t => t.wfB

theorem ETree.removeT_fst [LinearOrder α] (t : ETree α) (k : α) :
    (t.removeT k).1 = t.findT k := by
  induction t with
  | lf j => by_cases hj : j = k <;> simp [ETree.removeT, ETree.findT, hj]
  | nd key l r ihl ihr =>
    by_cases hk : k < key
    · simp only [ETree.removeT, ETree.findT, if_pos hk]
      rcases hrem : l.removeT k with ⟨b, o⟩
      rw [hrem] at ihl
      cases o <;> simpa using ihl
    · simp only [ETree.removeT, ETree.findT, if_neg hk]
      rcases hrem : r.removeT k with ⟨b, o⟩
      rw [hrem] at ihr
      cases o <;> simpa using ihr

theorem ETree.removeT_mem [LinearOrder α] (t : ETree α) (k : α)
    (h : t.wfB = true) (y : α) :
    y ∈ leafSeqO (t.removeT k).2 ↔ y ∈ t.leafSeq ∧ y ≠ k := by
  induction t with
  | lf j =>
    by_cases hj : j = k
    · subst hj
      simp [ETree.removeT, leafSeqO, ETree.leafSeq]
    · simp only [ETree.removeT, if_neg hj, leafSeqO, ETree.leafSeq,
        List.mem_singleton]
      exact ⟨fun hy => ⟨hy, hy ▸ hj⟩, fun hy => hy.1⟩
  | nd key l r ihl ihr =>
    rw [ETree.wfB_nd] at h
    obtain ⟨hl, hr, hwl, hwr⟩ := h
    by_cases hk : k < key
    · have hrk : ∀ x ∈ r.leafSeq, x ≠ k :=
        fun x hx => ne_of_gt (lt_of_lt_of_le hk (hr x hx))
      have ihm := ihl hwl
      simp only [ETree.removeT, if_pos hk]
      rcases hrem : l.removeT k with ⟨b, o⟩
      rw [hrem] at ihm
      cases o with
      | none =>
        simp only [leafSeqO] at ihm ⊢
        simp only [ETree.leafSeq, List.mem_append]
        constructor
        · intro hy
          exact ⟨Or.inr hy, hrk y hy⟩
        · rintro ⟨hy | hy, hne⟩
          · exact absurd ⟨hy, hne⟩ ((List.not_mem_nil y) ∘ ihm.mpr)
          · exact hy
      | some l2 =>
        simp only [leafSeqO] at ihm ⊢
        simp only [ETree.leafSeq, List.mem_append, ihm]
        constructor
        · rintro (⟨hy, hne⟩ | hy)
          · exact ⟨Or.inl hy, hne⟩
          · exact ⟨Or.inr hy, hrk y hy⟩
        · rintro ⟨hy | hy, hne⟩
          · exact Or.inl ⟨hy, hne⟩
          · exact Or.inr hy
    · have hlk : ∀ x ∈ l.leafSeq, x ≠ k :=
        fun x hx => ne_of_lt (lt_of_lt_of_le (hl x hx) (not_lt.mp hk))
      have ihm := ihr hwr
      simp only [ETree.removeT, if_neg hk]
      rcases hrem : r.removeT k with ⟨b, o⟩
      rw [hrem] at ihm
      cases o with
      | none =>
        simp only [leafSeqO] at ihm ⊢
        simp only [ETree.leafSeq, List.mem_append]
        constructor
        · intro hy
          exact ⟨Or.inl hy, hlk y hy⟩
        · rintro ⟨hy | hy, hne⟩
          · exact hy
          · exact absurd ⟨hy, hne⟩ ((List.not_mem_nil y) ∘ ihm.mpr)
      | some r2 =>
        simp only [leafSeqO] at ihm ⊢
        simp only [ETree.leafSeq, List.mem_append, ihm]
        constructor
        · rintro (hy | ⟨hy, hne⟩)
          · exact ⟨Or.inl hy, hlk y hy⟩
          · exact ⟨Or.inr hy, hne⟩
        · rintro ⟨hy | hy, hne⟩
          · exact Or.inl hy
          · exact Or.inr ⟨hy, hne⟩

theorem ETree.removeT_wf [LinearOrder α] (t : ETree α) (k : α)
    (h : t.wfB = true) : wfO (t.removeT k).2 = true := by
  induction t with
  | lf j => by_cases hj : j = k <;> simp [ETree.removeT, hj, wfO, ETree.wfB]
  | nd key l r ihl ihr =>
    rw [ETree.wfB_nd] at h
    obtain ⟨hl, hr, hwl, hwr⟩ := h
    by_cases hk : k < key
    · have ihm := fun y => ETree.removeT_mem l k hwl y
      have ihw := ihl hwl
      simp only [ETree.removeT, if_pos hk]
      rcases hrem : l.removeT k with ⟨b, o⟩
      rw [hrem] at ihm ihw
      cases o with
      | none => simpa [wfO] using hwr
      | some l2 =>
        simp only [wfO] at ihw ⊢
        rw [ETree.wfB_nd]
        refine ⟨?_, hr, ihw, hwr⟩
        intro x hx
        have := (ihm x).mp (by simpa [leafSeqO] using hx)
        exact hl x this.1
    · have ihm := fun y => ETree.removeT_mem r k hwr y
      have ihw := ihr hwr
      simp only [ETree.removeT, if_neg hk]
      rcases hrem : r.removeT k with ⟨b, o⟩
      rw [hrem] at ihm ihw
      cases o with
      | none => simpa [wfO] using hwl
      | some r2 =>
        simp only [wfO] at ihw ⊢
        rw [ETree.wfB_nd]
        refine ⟨hl, ?_, hwl, ihw⟩
        intro x hx
        have := (ihm x).mp (by simpa [leafSeqO] using hx)
        exact hr x this.1

theorem ETree.extractMinT_leafSeq (t : ETree α) :
    t.leafSeq = (t.extractMinT).1 :: leafSeqO (t.extractMinT).2 := by
  induction t with
  | lf k => rfl
  | nd key l r ihl ihr =>
    simp only [ETree.extractMinT]
    rcases hrem : l.extractMinT with ⟨m, o⟩
    rw [hrem] at ihl
    cases o with
    | none =>
      simp only [leafSeqO] at ihl ⊢
      simp [ETree.leafSeq, ihl]
    | some l2 =>
      simp only [leafSeqO] at ihl ⊢
      simp [ETree.leafSeq, ihl]

theorem ETree.extractMaxT_leafSeq (t : ETree α) :
    t.leafSeq = leafSeqO (t.extractMaxT).2 ++ [(t.extractMaxT).1] := by
  induction t with
  | lf k => rfl
  | nd key l r ihl ihr =>
    simp only [ETree.extractMaxT]
    rcases hrem : r.extractMaxT with ⟨m, o⟩
    rw [hrem] at ihr
    cases o with
    | none =>
      simp only [leafSeqO] at ihr ⊢
      simp [ETree.leafSeq, ihr]
    | some r2 =>
      simp only [leafSeqO] at ihr ⊢
      simp [ETree.leafSeq, ihr]

theorem EllenSet.keys_mk (o : Option (ETree α)) :
    (⟨o⟩ : EllenSet α).keys = leafSeqO o := by
  cases o <;> rfl

theorem EllenSet.drainMin_eq [LinearOrder α] :
    ∀ (n : Nat) (s : EllenSet α), EllenSet.drainMin n s = s.keys.take n := by
  intro n
  induction n with
  | zero =>
    intro s
    simp [EllenSet.drainMin]
  | succ n ih =>
    intro s
    obtain ⟨o⟩ := s
    cases o with
    | none => simp [EllenSet.drainMin, EllenSet.extract_min, EllenSet.keys]
    | some t =>
      rcases hrem : t.extractMinT with ⟨m, o2⟩
      have hseq := ETree.extractMinT_leafSeq t
      rw [hrem] at hseq
      have h1 : EllenSet.drainMin (n + 1) ⟨some t⟩
          = m :: EllenSet.drainMin n ⟨o2⟩ := by
        simp [EllenSet.drainMin, EllenSet.extract_min, hrem]
      rw [h1, ih]
      have h2 : (⟨some t⟩ : EllenSet α).keys = m :: leafSeqO o2 := by
        simpa [EllenSet.keys] using hseq
      rw [h2, EllenSet.keys_mk]
      rfl

theorem EllenSet.drainMax_eq [LinearOrder α] :
    ∀ (n : Nat) (s : EllenSet α), EllenSet.drainMax n s = s.keys.reverse.take n := by
  intro n
  induction n with
  | zero =>
    intro s
    simp [EllenSet.drainMax]
  | succ n ih =>
    intro s
    obtain ⟨o⟩ := s
    cases o with
    | none => simp [EllenSet.drainMax, EllenSet.extract_max, EllenSet.keys]
    | some t =>
      rcases hrem : t.extractMaxT with ⟨m, o2⟩
      have hseq := ETree.extractMaxT_leafSeq t
      rw [hrem] at hseq
      have h1 : EllenSet.drainMax (n + 1) ⟨some t⟩
          = m :: EllenSet.drainMax n ⟨o2⟩ := by
        simp [EllenSet.drainMax, EllenSet.extract_max, hrem]
      rw [h1, ih]
      have h2 : (⟨some t⟩ : EllenSet α).keys.reverse
          = m :: (leafSeqO o2).reverse := by
        simp [EllenSet.keys, hseq]
      rw [h2, EllenSet.keys_mk]
      rfl

/-- C5: on an EllenBinTreeSet accessed by a single thread, repeatedly
calling extract_min returns the present keys in ascending order (the
drained sequence is exactly the key list, which is strictly ascending),
extract_max drains them in descending order, and on the empty set both
calls return false and leave the guarded-pointer result unchanged. -/
theorem c5_extract_order (α : Type) [LinearOrder α] (s : EllenSet α)
    (h : s.wfS = true) :
    EllenSet.drainMin s.keys.length s = s.keys
    ∧ List.Sorted (· < ·) s.keys
    ∧ EllenSet.drainMax s.keys.length s = s.keys.reverse
    ∧ (∀ r : Option α, EllenSet.extract_min (EllenSet.new : EllenSet α) r
        = (false, EllenSet.new, r))
    ∧ (∀ r : Option α, EllenSet.extract_max (EllenSet.new : EllenSet α) r
        = (false, EllenSet.new, r)) := by
  refine ⟨?_, ?_, ?_, fun r => rfl, fun r => rfl⟩
  · rw [EllenSet.drainMin_eq]
    exact List.take_length _
  · obtain ⟨o⟩ := s
    cases o with
    | none =>
      simp [EllenSet.keys]
    | some t =>
      exact ETree.leafSeq_sorted t (by simpa [EllenSet.wfS] using h)
  · rw [EllenSet.drainMax_eq]
    rw [show s.keys.length = s.keys.reverse.length from (List.length_reverse _).symm]
    exact List.take_length _

/-- Witness for C5: the concrete well-formed tree holding {2, 3, 7}
drains to [2, 3, 7] by extract_min and to [7, 3, 2] by extract_max. -/
theorem c5_extract_order_witness :
    EllenSet.drainMin 3
        (⟨some (.nd 3 (.lf 2) (.nd 7 (.lf 3) (.lf 7)))⟩ : EllenSet Nat)
      = [2, 3, 7]
    ∧ EllenSet.drainMax 3
        (⟨some (.nd 3 (.lf 2) (.nd 7 (.lf 3) (.lf 7)))⟩ : EllenSet Nat)
      = [7, 3, 2] := by
  have h := c5_extract_order Nat
    (⟨some (.nd 3 (.lf 2) (.nd 7 (.lf 3) (.lf 7)))⟩ : EllenSet Nat) (by decide)
  exact ⟨h.1, h.2.2.1⟩

theorem bool_eq_of_iff {a b : Bool} (h : a = true ↔ b = true) : a = b := by
  cases a <;> cases b <;> simp_all

theorem llFind_insert [LinearOrder α] (s : List α) (k j : α)
    (hs : List.Sorted (· < ·) s) :
    llFind (llInsert s k).2 j = (llFind s j || decide (j = k)) := by
  apply bool_eq_of_iff
  rw [llFind_iff_mem _ j (llInsert_sorted s k hs), llInsert_mem]
  rw [Bool.or_eq_true, llFind_iff_mem s j hs, decide_eq_true_eq]
  tauto

theorem llFind_erase [LinearOrder α] (s : List α) (k j : α)
    (hs : List.Sorted (· < ·) s) :
    llFind (llErase s k).2 j = (llFind s j && !(decide (j = k))) := by
  apply bool_eq_of_iff
  rw [llFind_iff_mem _ j (llErase_sorted s k hs), llErase_mem s k hs j]
  rw [Bool.and_eq_true, llFind_iff_mem s j hs, Bool.not_eq_true', decide_eq_false_iff_not]

theorem EllenSet.wfS_mk [LinearOrder α] (o : Option (ETree α)) :
    (⟨o⟩ : EllenSet α).wfS = wfO o := by
  cases o <;> rfl

theorem EllenSet.find_iff_mem [LinearOrder α] (s : EllenSet α) (k : α)
    (h : s.wfS = true) : s.find k = true ↔ k ∈ s.keys := by
  obtain ⟨o⟩ := s
  cases o with
  | none => simp [EllenSet.find, EllenSet.keys]
  | some t => exact ETree.findT_iff_mem t k (by simpa [EllenSet.wfS] using h)

theorem EllenSet.insert_fst [LinearOrder α] (s : EllenSet α) (k : α) :
    (s.insert k).1 = !(s.find k) := by
  obtain ⟨o⟩ := s
  cases o with
  | none => rfl
  | some t => exact ETree.insertT_fst t k

theorem EllenSet.insert_wf [LinearOrder α] (s : EllenSet α) (k : α)
    (h : s.wfS = true) : (s.insert k).2.wfS = true := by
  obtain ⟨o⟩ := s
  cases o with
  | none => rfl
  | some t => exact ETree.insertT_wf t k (by simpa [EllenSet.wfS] using h)

theorem EllenSet.insert_mem [LinearOrder α] (s : EllenSet α) (k y : α) :
    y ∈ (s.insert k).2.keys ↔ y = k ∨ y ∈ s.keys := by
  obtain ⟨o⟩ := s
  cases o with
  | none => simp [EllenSet.insert, EllenSet.keys, ETree.leafSeq]
  | some t => exact ETree.insertT_mem t k y

theorem EllenSet.find_insert [LinearOrder α] (s : EllenSet α) (k j : α)
    (h : s.wfS = true) :
    (s.insert k).2.find j = (s.find j || decide (j = k)) := by
  apply bool_eq_of_iff
  rw [EllenSet.find_iff_mem _ j (EllenSet.insert_wf s k h), EllenSet.insert_mem]
  rw [Bool.or_eq_true, EllenSet.find_iff_mem s j h, decide_eq_true_eq]
  tauto

theorem EllenSet.erase_fst [LinearOrder α] (s : EllenSet α) (k : α) :
    (s.erase k).1 = s.find k := by
  obtain ⟨o⟩ := s
  cases o with
  | none => rfl
  | some t => exact ETree.removeT_fst t k

theorem EllenSet.erase_wf [LinearOrder α] (s : EllenSet α) (k : α)
    (h : s.wfS = true) : (s.erase k).2.wfS = true := by
  obtain ⟨o⟩ := s
  cases o with
  | none => exact h
  | some t =>
    rw [show ((⟨some t⟩ : EllenSet α).erase k).2 = ⟨(t.removeT k).2⟩ from rfl]
    rw [EllenSet.wfS_mk]
    exact ETree.removeT_wf t k (by simpa [EllenSet.wfS] using h)

theorem EllenSet.erase_mem [LinearOrder α] (s : EllenSet α) (k : α)
    (h : s.wfS = true) (y : α) :
    y ∈ (s.erase k).2.keys ↔ y ∈ s.keys ∧ y ≠ k := by
  obtain ⟨o⟩ := s
  cases o with
  | none => simp [EllenSet.erase, EllenSet.keys]
  | some t =>
    rw [show ((⟨some t⟩ : EllenSet α).erase k).2 = ⟨(t.removeT k).2⟩ from rfl]
    rw [EllenSet.keys_mk]
    exact ETree.removeT_mem t k (by simpa [EllenSet.wfS] using h) y

theorem EllenSet.find_erase [LinearOrder α] (s : EllenSet α) (k j : α)
    (h : s.wfS = true) :
    (s.erase k).2.find j = (s.find j && !(decide (j = k))) := by
  apply bool_eq_of_iff
  rw [EllenSet.find_iff_mem _ j (EllenSet.erase_wf s k h), EllenSet.erase_mem s k h j]
  rw [Bool.and_eq_true, EllenSet.find_iff_mem s j h, Bool.not_eq_true',
    decide_eq_false_iff_not]

/-- C1: for both set containers (lazy ordered list, Ellen binary search
tree set), after any single-threaded sequence of insert and erase
operations starting from the empty container, find(k) is true iff the net
count of successful inserts minus successful erases of k is positive; in
particular for the dedup scenario insert 5, insert 5, erase 5 the results
are true, false, true and find(5) afterwards is false. -/
theorem c1_set_law :
    (∀ (α : Type) [LinearOrder α] (ops : List (SOp α)) (k : α),
      llFind (runTrace llInsert llErase [] ops).1 k
        = decide (0 < netCount k (runTrace llInsert llErase [] ops).2))
    ∧ (∀ (α : Type) [LinearOrder α] (ops : List (SOp α)) (k : α),
      EllenSet.find (runTrace EllenSet.insert EllenSet.erase EllenSet.new ops).1 k
        = decide (0 < netCount k
            (runTrace EllenSet.insert EllenSet.erase EllenSet.new ops).2))
    ∧ (runTrace llInsert llErase ([] : List Nat)
        [SOp.ins 5, SOp.ins 5, SOp.del 5]).2
        = [(SOp.ins 5, true), (SOp.ins 5, false), (SOp.del 5, true)]
    ∧ llFind (runTrace llInsert llErase ([] : List Nat)
        [SOp.ins 5, SOp.ins 5, SOp.del 5]).1 5 = false
    ∧ (runTrace EllenSet.insert EllenSet.erase (EllenSet.new : EllenSet Nat)
        [SOp.ins 5, SOp.ins 5, SOp.del 5]).2
        = [(SOp.ins 5, true), (SOp.ins 5, false), (SOp.del 5, true)]
    ∧ EllenSet.find (runTrace EllenSet.insert EllenSet.erase
        (EllenSet.new : EllenSet Nat) [SOp.ins 5, SOp.ins 5, SOp.del 5]).1 5
        = false := by
  refine ⟨?_, ?_, by decide, by decide, by decide, by decide⟩
  · intro α inst ops k
    have H := runTrace_memInd llInsert llErase llFind (List.Sorted (· < ·))
      (fun s k _ => llInsert_fst s k)
      (fun s k j hI => llFind_insert s k j hI)
      (fun s k hI => llInsert_sorted s k hI)
      (fun s k _ => llErase_fst s k)
      (fun s k j hI => llFind_erase s k j hI)
      (fun s k hI => llErase_sorted s k hI)
      ops [] List.sorted_nil k
    have h0 : memInd llFind ([] : List α) k = 0 := by simp [memInd, llFind]
    rw [h0, zero_add] at H
    simp only [memInd] at H
    cases hf : llFind (runTrace llInsert llErase [] ops).1 k with
    | false =>
      rw [hf] at H
      simp at H
      rw [← H]
      decide
    | true =>
      rw [hf] at H
      simp at H
      rw [← H]
      decide
  · intro α inst ops k
    have H := runTrace_memInd EllenSet.insert EllenSet.erase EllenSet.find
      (fun s => s.wfS = true)
      (fun s k _ => EllenSet.insert_fst s k)
      (fun s k j hI => EllenSet.find_insert s k j hI)
      (fun s k hI => EllenSet.insert_wf s k hI)
      (fun s k _ => EllenSet.erase_fst s k)
      (fun s k j hI => EllenSet.find_erase s k j hI)
      (fun s k hI => EllenSet.erase_wf s k hI)
      ops EllenSet.new rfl k
    have h0 : memInd EllenSet.find (EllenSet.new : EllenSet α) k = 0 := by
      simp [memInd, EllenSet.find, EllenSet.new]
    rw [h0, zero_add] at H
    simp only [memInd] at H
    cases hf : EllenSet.find
        (runTrace EllenSet.insert EllenSet.erase EllenSet.new ops).1 k with
    | false =>
      rw [hf] at H
      simp at H
      rw [← H]
      decide
    | true =>
      rw [hf] at H
      simp at H
      rw [← H]
      decide

theorem llInsertF_spec [LinearOrder α] (s : List α) (k : α) :
    (llInsertF s k).1 = !(llFind s k)
    ∧ (llInsertF s k).2.2 = (if llFind s k = true then [] else [k]) := by
  induction s with
  | nil => simp [llInsertF, llFind]
  | cons x xs ih =>
    by_cases hlt : x < k
    · simpa [llInsertF, llFind, hlt] using ih
    · by_cases he : x = k <;> simp [llInsertF, llFind, hlt, he]

theorem ETree.insertTF_spec [LinearOrder α] (t : ETree α) (k : α) :
    (t.insertTF k).1 = !(t.findT k)
    ∧ (t.insertTF k).2.2 = (if t.findT k = true then [] else [k]) := by
  induction t with
  | lf j =>
    by_cases hj : j = k
    · simp [ETree.insertTF, ETree.findT, hj]
    · by_cases hk : k < j <;> simp [ETree.insertTF, ETree.findT, hj, hk]
  | nd key l r ihl ihr =>
    by_cases hk : k < key
    · simpa [ETree.insertTF, ETree.findT, hk] using ihl
    · simpa [ETree.insertTF, ETree.findT, hk] using ihr

/-- C6: for insert(v, f) on the lazy list and on the Ellen tree set, the
post-link initializer functor runs on the newly inserted item exactly
when the insertion succeeds; when the key is already present, insert
returns false and the functor is never invoked. -/
theorem c6_insert_functor :
    (∀ (α : Type) [LinearOrder α] (s : List α) (k : α),
      (llInsertF s k).1 = !(llFind s k)
      ∧ (llInsertF s k).2.2 = (if llFind s k = true then [] else [k]))
    ∧ (∀ (α : Type) [LinearOrder α] (s : EllenSet α) (k : α),
      (EllenSet.insertF s k).1 = !(EllenSet.find s k)
      ∧ (EllenSet.insertF s k).2.2
          = (if EllenSet.find s k = true then [] else [k])) := by
  constructor
  · intro α inst s k
    exact llInsertF_spec s k
  · intro α inst s k
    obtain ⟨o⟩ := s
    cases o with
    | none => simp [EllenSet.insertF, EllenSet.find]
    | some t => exact ETree.insertTF_spec t k

theorem llEnsure_fst [LinearOrder α] (s : List α) (k : α) :
    (llEnsure s k).1 = (true, !(llFind s k)) := by
  induction s with
  | nil => simp [llEnsure, llFind]
  | cons x xs ih =>
    by_cases hlt : x < k
    · simpa [llEnsure, llFind, hlt] using ih
    · by_cases he : x = k <;> simp [llEnsure, llFind, hlt, he]

theorem llEnsure_calls [LinearOrder α] (s : List α) (k : α) :
    (llEnsure s k).2.2
      = (if llFind s k = true then [(false, k)] else [(true, k)]) := by
  induction s with
  | nil => simp [llEnsure, llFind]
  | cons x xs ih =>
    by_cases hlt : x < k
    · simpa [llEnsure, llFind, hlt] using ih
    · by_cases he : x = k <;> simp [llEnsure, llFind, hlt, he]

theorem llEnsure_state_present [LinearOrder α] (s : List α) (k : α)
    (h : llFind s k = true) : (llEnsure s k).2.1 = s := by
  induction s with
  | nil => simp [llFind] at h
  | cons x xs ih =>
    by_cases hlt : x < k
    · rw [llFind] at h
      rw [if_pos hlt] at h
      simp [llEnsure, hlt, ih h]
    · by_cases he : x = k
      · simp [llEnsure, hlt, he]
      · rw [llFind] at h
        rw [if_neg hlt] at h
        simp [he] at h

theorem llEnsure_mem [LinearOrder α] (s : List α) (k y : α) :
    y ∈ (llEnsure s k).2.1 ↔ y = k ∨ y ∈ s := by
  induction s with
  | nil => simp [llEnsure]
  | cons x xs ih =>
    by_cases hlt : x < k
    · simp only [llEnsure, if_pos hlt, List.mem_cons, ih]
      tauto
    · by_cases he : x = k
      · subst he
        have hres : llEnsure (x :: xs) x = ((true, false), x :: xs, [(false, x)]) := by
          simp [llEnsure, hlt]
        rw [hres]
        simp only [List.mem_cons]
        tauto
      · simp only [llEnsure, if_neg hlt, if_neg he, List.mem_cons]

theorem ETree.ensureT_fst [LinearOrder α] (t : ETree α) (k : α) :
    (t.ensureT k).1 = (true, !(t.findT k)) := by
  induction t with
  | lf j =>
    by_cases hj : j = k
    · simp [ETree.ensureT, ETree.findT, hj]
    · by_cases hk : k < j <;> simp [ETree.ensureT, ETree.findT, hj, hk]
  | nd key l r ihl ihr =>
    by_cases hk : k < key
    · simpa [ETree.ensureT, ETree.findT, hk] using ihl
    · simpa [ETree.ensureT, ETree.findT, hk] using ihr

theorem ETree.ensureT_calls [LinearOrder α] (t : ETree α) (k : α) :
    (t.ensureT k).2.2
      = (if t.findT k = true then [(false, k)] else [(true, k)]) := by
  induction t with
  | lf j =>
    by_cases hj : j = k
    · simp [ETree.ensureT, ETree.findT, hj]
    · by_cases hk : k < j <;> simp [ETree.ensureT, ETree.findT, hj, hk]
  | nd key l r ihl ihr =>
    by_cases hk : k < key
    · simpa [ETree.ensureT, ETree.findT, hk] using ihl
    · simpa [ETree.ensureT, ETree.findT, hk] using ihr

theorem ETree.ensureT_state_present [LinearOrder α] (t : ETree α) (k : α)
    (h : t.findT k = true) : (t.ensureT k).2.1 = t := by
  induction t with
  | lf j =>
    rw [ETree.findT, decide_eq_true_eq] at h
    simp [ETree.ensureT, h]
  | nd key l r ihl ihr =>
    by_cases hk : k < key
    · rw [ETree.findT, if_pos hk] at h
      simp [ETree.ensureT, hk, ihl h]
    · rw [ETree.findT, if_neg hk] at h
      simp [ETree.ensureT, hk, ihr h]

theorem ETree.ensureT_mem [LinearOrder α] (t : ETree α) (k y : α) :
    y ∈ (t.ensureT k).2.1.leafSeq ↔ y = k ∨ y ∈ t.leafSeq := by
  induction t with
  | lf j =>
    by_cases hj : j = k
    · subst hj
      simp [ETree.ensureT, ETree.leafSeq]
    · by_cases hk : k < j
      · simp only [ETree.ensureT, if_neg hj, if_pos hk, ETree.leafSeq,
          List.mem_append, List.mem_cons, List.not_mem_nil, or_false]
      · simp only [ETree.ensureT, if_neg hj, if_neg hk, ETree.leafSeq,
          List.mem_append, List.mem_cons, List.not_mem_nil, or_false]
        tauto
  | nd key l r ihl ihr =>
    by_cases hk : k < key
    · simp only [ETree.ensureT, if_pos hk, ETree.leafSeq, List.mem_append, ihl]
      tauto
    · simp only [ETree.ensureT, if_neg hk, ETree.leafSeq, List.mem_append, ihr]
      tauto

/-- C4: ensure(key, f) on the lazy list and on the Ellen tree set: if the
key is absent a new item created from the key is inserted and the result
is (true, true) with the functor run once with bNew = true; if the key is
present the functor runs once on the existing item with bNew = false, no
item is added, and the result is (true, false); the second component of
the pair is true exactly when a new item was inserted. -/
theorem c4_ensure_upsert :
    (∀ (α : Type) [LinearOrder α] (s : List α) (k : α),
      (llEnsure s k).1 = (true, !(llFind s k))
      ∧ (llFind s k = true →
          (llEnsure s k).2.1 = s ∧ (llEnsure s k).2.2 = [(false, k)])
      ∧ (llFind s k = false →
          (llEnsure s k).2.2 = [(true, k)]
          ∧ ∀ y, y ∈ (llEnsure s k).2.1 ↔ y = k ∨ y ∈ s)
      ∧ ((llEnsure s k).1.2 = true ↔ llFind s k = false))
    ∧ (∀ (α : Type) [LinearOrder α] (s : EllenSet α) (k : α),
      (EllenSet.ensure s k).1 = (true, !(EllenSet.find s k))
      ∧ (EllenSet.find s k = true →
          (EllenSet.ensure s k).2.1 = s
          ∧ (EllenSet.ensure s k).2.2 = [(false, k)])
      ∧ (EllenSet.find s k = false →
          (EllenSet.ensure s k).2.2 = [(true, k)]
          ∧ ∀ y, y ∈ (EllenSet.ensure s k).2.1.keys ↔ y = k ∨ y ∈ s.keys)
      ∧ ((EllenSet.ensure s k).1.2 = true ↔ EllenSet.find s k = false)) := by
  constructor
  · intro α inst s k
    refine ⟨llEnsure_fst s k, ?_, ?_, ?_⟩
    · intro h
      exact ⟨llEnsure_state_present s k h, by simp [llEnsure_calls, h]⟩
    · intro h
      exact ⟨by simp [llEnsure_calls, h], fun y => llEnsure_mem s k y⟩
    · rw [llEnsure_fst s k]
      cases hf : llFind s k <;> simp
  · intro α inst s k
    obtain ⟨o⟩ := s
    cases o with
    | none =>
      refine ⟨rfl, ?_, ?_, ?_⟩
      · intro h
        simp [EllenSet.find] at h
      · intro h
        refine ⟨rfl, fun y => ?_⟩
        simp [EllenSet.ensure, EllenSet.keys, ETree.leafSeq]
      · simp [EllenSet.ensure, EllenSet.find]
    | some t =>
      refine ⟨ETree.ensureT_fst t k, ?_, ?_, ?_⟩
      · intro h
        have h2 : t.findT k = true := h
        constructor
        · show (⟨some (t.ensureT k).2.1⟩ : EllenSet α) = ⟨some t⟩
          rw [ETree.ensureT_state_present t k h2]
        · show (t.ensureT k).2.2 = [(false, k)]
          simp [ETree.ensureT_calls, h2]
      · intro h
        have h2 : t.findT k = false := h
        constructor
        · show (t.ensureT k).2.2 = [(true, k)]
          simp [ETree.ensureT_calls, h2]
        · intro y
          show y ∈ (⟨some (t.ensureT k).2.1⟩ : EllenSet α).keys ↔ _
          rw [EllenSet.keys_mk]
          exact ETree.ensureT_mem t k y
      · rw [show (EllenSet.ensure (⟨some t⟩ : EllenSet α) k).1
            = (t.ensureT k).1 from rfl]
        rw [ETree.ensureT_fst t k]
        cases hf : t.findT k <;> simp [EllenSet.find, hf]

/-- Witness for C4: on the concrete one-element containers holding 5,
ensure(5) reports (true, false), leaves the container unchanged, and
invokes the functor once with bNew = false; ensure(3) reports
(true, true). -/
theorem c4_ensure_upsert_witness :
    (llEnsure [5] 5).1 = (true, false)
    ∧ (llEnsure [5] 5).2.1 = [5]
    ∧ (llEnsure [5] 5).2.2 = [(false, 5)]
    ∧ (llEnsure [5] 3).1 = (true, true)
    ∧ (EllenSet.ensure (⟨some (.lf 5)⟩ : EllenSet Nat) 5).1 = (true, false)
    ∧ (EllenSet.ensure (⟨some (.lf 5)⟩ : EllenSet Nat) 5).2.2 = [(false, 5)] := by
  have h1 := c4_ensure_upsert.1 Nat [5] 5
  have h2 := c4_ensure_upsert.1 Nat [5] 3
  have h3 := c4_ensure_upsert.2 Nat (⟨some (.lf 5)⟩ : EllenSet Nat) 5
  refine ⟨?_, (h1.2.1 (by decide)).1, (h1.2.1 (by decide)).2, ?_, ?_,
    (h3.2.1 (by decide)).2⟩
  · rw [h1.1]
    decide
  · rw [h2.1]
    decide
  · rw [h3.1]
    decide

/-- C7 counterexample: the claim states that convert_to_store_order
returns every ordering other than acquire and acq_rel unchanged, but the
source switch also maps memory_order_consume to memory_order_relaxed, so
at the input consume the function does not return its argument. -/
theorem c7_convert_counterexample :
    convert_to_store_order MemOrder.consume = MemOrder.relaxed
    ∧ MemOrder.consume ≠ MemOrder.relaxed := by
  exact ⟨rfl, by decide⟩

/-- C7 (amended): convert_to_store_order maps acquire and consume to
relaxed and acq_rel to release and returns every other ordering
unchanged; convert_to_load_order maps release to relaxed and acq_rel to
acquire and returns every other ordering unchanged. -/
theorem c7_convert_orders :
    convert_to_store_order MemOrder.acquire = MemOrder.relaxed
    ∧ convert_to_store_order MemOrder.consume = MemOrder.relaxed
    ∧ convert_to_store_order MemOrder.acq_rel = MemOrder.release
    ∧ (∀ o, o ≠ MemOrder.acquire → o ≠ MemOrder.consume →
        o ≠ MemOrder.acq_rel → convert_to_store_order o = o)
    ∧ convert_to_load_order MemOrder.release = MemOrder.relaxed
    ∧ convert_to_load_order MemOrder.acq_rel = MemOrder.acquire
    ∧ (∀ o, o ≠ MemOrder.release → o ≠ MemOrder.acq_rel →
        convert_to_load_order o = o) := by
  refine ⟨rfl, rfl, rfl, ?_, rfl, rfl, ?_⟩
  · intro o h1 h2 h3
    cases o <;>
      first
        | rfl
        | exact absurd rfl h1
        | exact absurd rfl h2
        | exact absurd rfl h3
  · intro o h1 h2
    cases o <;>
      first
        | rfl
        | exact absurd rfl h1
        | exact absurd rfl h2

/-- Witness for C7: the fall-through cases applied at seq_cst and at
consume (for the load conversion). -/
theorem c7_convert_orders_witness :
    convert_to_store_order MemOrder.seq_cst = MemOrder.seq_cst
    ∧ convert_to_load_order MemOrder.consume = MemOrder.consume :=
  ⟨c7_convert_orders.2.2.2.1 MemOrder.seq_cst (by decide) (by decide) (by decide),
    c7_convert_orders.2.2.2.2.2.2 MemOrder.consume (by decide) (by decide)⟩

/-- An item-counter policy: how a container updates and reads its counter
cell (a plain natural number in this sequential model). -/
structure ItemCounterPolicy where
  inc : Nat → Nat
  dec : Nat → Nat
  read : Nat → Nat

/-- Modelled from the spec: atomicity::empty_item_counter, the default
item counter of the containers — a no-op counter (increment and decrement
do nothing) whose value reads as 0, so size() returns 0. -/
def empty_item_counter : ItemCounterPolicy :=
  ⟨fun n => n, fun n => n, fun _ => 0⟩

/-- A queue state carrying the configured item counter cell next to the
chain of values (the counter is bumped on enqueue and dropped on
successful dequeue through the policy). -/
structure CQueue (α : Type) where
  items : List α
  cnt : Nat

/-- A single-threaded queue operation. -/
inductive QOp (α : Type) where
  | enq : α → QOp α
  | deq : QOp α

/-- Run queue operations, maintaining the counter through the policy. -/
def CQueue.run (p : ItemCounterPolicy) : CQueue α → List (QOp α) → CQueue α
  | q, [] => q
  | q, QOp.enq v :: rest =>
    CQueue.run p ⟨q.items ++ [v], p.inc q.cnt⟩ rest
  | q, QOp.deq :: rest =>
    match q.items with
    | [] => CQueue.run p q rest
    | _ :: xs => CQueue.run p ⟨xs, p.dec q.cnt⟩ rest

/-- size() under an item-counter policy reads the counter cell. -/
def CQueue.size (p : ItemCounterPolicy) (q : CQueue α) : Nat :=
  p.read q.cnt

/-- empty() inspects the chain itself, not the counter. -/
def CQueue.isEmpty (q : CQueue α) : Bool :=
  q.items.isEmpty

/-- A lazy-list state carrying the configured item counter cell. -/
structure CList (α : Type) where
  items : List α
  cnt : Nat

/-- Run set operations over the lazy list, maintaining the counter
through the policy on successful inserts and erases. -/
def CList.run [LinearOrder α] (p : ItemCounterPolicy) :
    CList α → List (SOp α) → CList α
  | s, [] => s
  | s, SOp.ins k :: rest =>
    CList.run p ⟨(llInsert s.items k).2,
      if (llInsert s.items k).1 then p.inc s.cnt else s.cnt⟩ rest
  | s, SOp.del k :: rest =>
    CList.run p ⟨(llErase s.items k).2,
      if (llErase s.items k).1 then p.dec s.cnt else s.cnt⟩ rest

/-- LazyList::size (src/cds/container/impl/lazy_list.h lines 718-729)
reads the configured item counter. -/
def CList.size (p : ItemCounterPolicy) (s : CList α) : Nat :=
  p.read s.cnt

/-- LazyList::empty inspects the chain itself. -/
def CList.isEmpty (s : CList α) : Bool :=
  s.items.isEmpty

/-- C8: with the default empty item counter (the default of make_msqueue
in src/cds/container/msqueue.h and of the lazy list), size() returns 0
after any operation sequence — in particular right after successful
enqueues or inserts — while empty() still reports whether the container
actually holds items. -/
theorem c8_empty_item_counter :
    (∀ (α : Type) (ops : List (QOp α)),
      CQueue.size empty_item_counter (CQueue.run empty_item_counter ⟨[], 0⟩ ops) = 0
      ∧ (CQueue.isEmpty (CQueue.run empty_item_counter ⟨[], 0⟩ ops) = true
          ↔ (CQueue.run empty_item_counter ⟨[], 0⟩ ops).items = []))
    ∧ (∀ (α : Type) [LinearOrder α] (ops : List (SOp α)),
      CList.size empty_item_counter (CList.run empty_item_counter ⟨[], 0⟩ ops) = 0
      ∧ (CList.isEmpty (CList.run empty_item_counter ⟨[], 0⟩ ops) = true
          ↔ (CList.run empty_item_counter ⟨[], 0⟩ ops).items = [])) := by
  constructor
  · intro α ops
    refine ⟨rfl, ?_⟩
    cases hq : (CQueue.run empty_item_counter ⟨[], 0⟩ ops).items <;>
      simp [CQueue.isEmpty, hq]
  · intro α inst ops
    refine ⟨rfl, ?_⟩
    cases hq : (CList.run empty_item_counter ⟨[], 0⟩ ops).items <;>
      simp [CList.isEmpty, hq]

/-- Allocation state of the node allocator: the next fresh node id and
the ids freed so far, one list entry per deallocation call. -/
structure AllocState where
  nextId : Nat
  freed : List Nat
  deriving DecidableEq

/-- Allocator sanity: every freed id was previously handed out, so it is
below the next fresh id. -/
def AllocState.ok (a : AllocState) : Bool :=
  a.freed.all (fun j => decide (j < a.nextId))

theorem AllocState.count_fresh (a : AllocState) (ha : a.ok = true) :
    (a.freed ++ [a.nextId]).count a.nextId = 1 := by
  have hnot : a.nextId ∉ a.freed := by
    intro hmem
    have h2 := List.all_eq_true.mp ha a.nextId hmem
    simp at h2
  rw [List.count_append, List.count_eq_zero.mpr hnot]
  simp

theorem llInsert_fail_eq [LinearOrder α] (s : List α) (k : α)
    (h : (llInsert s k).1 = false) : (llInsert s k).2 = s := by
  induction s with
  | nil => simp [llInsert] at h
  | cons x xs ih =>
    by_cases hlt : x < k
    · simp only [llInsert, if_pos hlt] at h ⊢
      rw [ih h]
    · by_cases he : x = k
      · simp [llInsert, hlt, he]
      · simp [llInsert, hlt, he] at h

theorem ETree.insertT_fail_eq [LinearOrder α] (t : ETree α) (k : α)
    (h : (t.insertT k).1 = false) : (t.insertT k).2 = t := by
  induction t with
  | lf j =>
    by_cases hj : j = k
    · simp [ETree.insertT, hj]
    · by_cases hk : k < j <;> simp [ETree.insertT, hj, hk] at h
  | nd key l r ihl ihr =>
    by_cases hk : k < key
    · simp only [ETree.insertT, if_pos hk] at h ⊢
      rw [ihl h]
    · simp only [ETree.insertT, if_neg hk] at h ⊢
      rw [ihr h]

theorem EllenSet.insert_fail_eq [LinearOrder α] (s : EllenSet α) (k : α)
    (h : (s.insert k).1 = false) : (s.insert k).2 = s := by
  obtain ⟨o⟩ := s
  cases o with
  | none => simp [EllenSet.insert] at h
  | some t =>
    show (⟨some (t.insertT k).2⟩ : EllenSet α) = ⟨some t⟩
    rw [ETree.insertT_fail_eq t k h]

theorem llEnsure_fail_eq [LinearOrder α] (s : List α) (k : α)
    (h : (llEnsure s k).1.2 = false) : (llEnsure s k).2.1 = s := by
  have h1 : (llEnsure s k).1.2 = !(llFind s k) := by rw [llEnsure_fst]
  rw [h] at h1
  have h2 : llFind s k = true := by
    cases hf : llFind s k
    · rw [hf] at h1
      simp at h1
    · rfl
  exact llEnsure_state_present s k h2

theorem EllenSet.ensure_fail_eq [LinearOrder α] (s : EllenSet α) (k : α)
    (h : (s.ensure k).1.2 = false) : (s.ensure k).2.1 = s := by
  obtain ⟨o⟩ := s
  cases o with
  | none => simp [EllenSet.ensure] at h
  | some t =>
    have h1 : (t.ensureT k).1.2 = false := h
    rw [ETree.ensureT_fst] at h1
    have h2 : t.findT k = true := by
      cases hf : t.findT k
      · rw [hf] at h1
        simp at h1
      · rfl
    show (⟨some (t.ensureT k).2.1⟩ : EllenSet α) = ⟨some t⟩
    rw [ETree.ensureT_state_present t k h2]

/-- Embeds the speculative-allocation pattern of LazyList::insert_at /
insert_node_at (src/cds/container/impl/lazy_list.h lines 742-777): a node
with the fresh id is allocated into a scoped pointer, the intrusive
insert is attempted, and on success the scoped pointer releases the node;
on failure the scoped pointer deallocates it once on scope exit. -/
def llInsertAlloc [LinearOrder α] (s : List α) (k : α) (a : AllocState) :
    Bool × List α × AllocState :=
  if (llInsert s k).1
  then (true, (llInsert s k).2, ⟨a.nextId + 1, a.freed⟩)
  else (false, (llInsert s k).2, ⟨a.nextId + 1, a.freed ++ [a.nextId]⟩)

/-- Embeds LazyList::ensure_at (src lines 791-802): the speculative node
is released only when the returned pair is (true, true); otherwise the
scoped pointer deallocates it once. -/
def llEnsureAlloc [LinearOrder α] (s : List α) (k : α) (a : AllocState) :
    (Bool × Bool) × List α × AllocState :=
  if (llEnsure s k).1.1 && (llEnsure s k).1.2
  then ((llEnsure s k).1, (llEnsure s k).2.1, ⟨a.nextId + 1, a.freed⟩)
  else ((llEnsure s k).1, (llEnsure s k).2.1,
    ⟨a.nextId + 1, a.freed ++ [a.nextId]⟩)

/-- Embeds EllenBinTreeSet::insert (src lines 201-210): same scoped
pattern for the leaf node allocator. -/
def etInsertAlloc [LinearOrder α] (s : EllenSet α) (k : α) (a : AllocState) :
    Bool × EllenSet α × AllocState :=
  if (s.insert k).1
  then (true, (s.insert k).2, ⟨a.nextId + 1, a.freed⟩)
  else (false, (s.insert k).2, ⟨a.nextId + 1, a.freed ++ [a.nextId]⟩)

/-- Embeds EllenBinTreeSet::ensure (src lines 270-279): the leaf is
released only when the pair reports an insertion. -/
def etEnsureAlloc [LinearOrder α] (s : EllenSet α) (k : α) (a : AllocState) :
    (Bool × Bool) × EllenSet α × AllocState :=
  if (s.ensure k).1.1 && (s.ensure k).1.2
  then ((s.ensure k).1, (s.ensure k).2.1, ⟨a.nextId + 1, a.freed⟩)
  else ((s.ensure k).1, (s.ensure k).2.1,
    ⟨a.nextId + 1, a.freed ++ [a.nextId]⟩)

/-- Embeds MSQueue::enqueue (src/cds/container/msqueue.h lines 193-201):
the node is allocated, the intrusive enqueue is attempted, and the node
is released on success; the intrusive enqueue always succeeds. -/
def msqEnqueueAlloc (q : MSQueueM α) (v : α) (a : AllocState) :
    Bool × MSQueueM α × AllocState :=
  if (q.enqueue v).1
  then (true, (q.enqueue v).2, ⟨a.nextId + 1, a.freed⟩)
  else (false, q, ⟨a.nextId + 1, a.freed ++ [a.nextId]⟩)

/-- Embeds OptimisticQueue::enqueue (src/cds/container/optimistic_queue.h
lines 202-210): the same scoped_node_ptr pattern — the node is allocated,
the intrusive enqueue is attempted, and the node is released on success;
the intrusive enqueue always succeeds. -/
def optEnqueueAlloc (q : OptQueueM α) (v : α) (a : AllocState) :
    Bool × OptQueueM α × AllocState :=
  if (q.enqueue v).1
  then (true, (q.enqueue v).2, ⟨a.nextId + 1, a.freed⟩)
  else (false, q, ⟨a.nextId + 1, a.freed ++ [a.nextId]⟩)

/-- C10: whenever a value-allocating wrapper operation fails to add its
element (insert or ensure reporting no insertion on the lazy list or the
Ellen tree set), the speculatively allocated node is handed back to the
node allocator exactly once and the container's contents are unchanged;
the MS-queue and optimistic-queue enqueues always succeed and never free
their nodes. -/
theorem c10_failed_insert_frees (α : Type) [LinearOrder α]
    (s : List α) (es : EllenSet α) (q : MSQueueM α) (oq : OptQueueM α) (k v : α)
    (a : AllocState) (ha : a.ok = true) :
    ((llInsertAlloc s k a).1 = false →
      (llInsertAlloc s k a).2.1 = s
      ∧ (llInsertAlloc s k a).2.2.freed = a.freed ++ [a.nextId]
      ∧ (llInsertAlloc s k a).2.2.freed.count a.nextId = 1)
    ∧ ((llEnsureAlloc s k a).1.2 = false →
      (llEnsureAlloc s k a).2.1 = s
      ∧ (llEnsureAlloc s k a).2.2.freed = a.freed ++ [a.nextId]
      ∧ (llEnsureAlloc s k a).2.2.freed.count a.nextId = 1)
    ∧ ((etInsertAlloc es k a).1 = false →
      (etInsertAlloc es k a).2.1 = es
      ∧ (etInsertAlloc es k a).2.2.freed = a.freed ++ [a.nextId]
      ∧ (etInsertAlloc es k a).2.2.freed.count a.nextId = 1)
    ∧ ((etEnsureAlloc es k a).1.2 = false →
      (etEnsureAlloc es k a).2.1 = es
      ∧ (etEnsureAlloc es k a).2.2.freed = a.freed ++ [a.nextId]
      ∧ (etEnsureAlloc es k a).2.2.freed.count a.nextId = 1)
    ∧ ((msqEnqueueAlloc q v a).1 = true
      ∧ (msqEnqueueAlloc q v a).2.2.freed = a.freed)
    ∧ ((optEnqueueAlloc oq v a).1 = true
      ∧ (optEnqueueAlloc oq v a).2.2.freed = a.freed) := by
  refine ⟨?_, ?_, ?_, ?_, ?_, ?_⟩
  · intro hf
    cases hb : (llInsert s k).1 with
    | true => simp [llInsertAlloc, hb] at hf
    | false =>
      refine ⟨?_, ?_, ?_⟩
      · simp only [llInsertAlloc, hb, Bool.false_eq_true, if_false]
        exact llInsert_fail_eq s k hb
      · simp [llInsertAlloc, hb]
      · simp only [llInsertAlloc, hb, Bool.false_eq_true, if_false]
        exact AllocState.count_fresh a ha
  · intro hf
    have h2 : (llEnsure s k).1.2 = false := by
      by_cases hb : ((llEnsure s k).1.1 && (llEnsure s k).1.2) = true <;>
        simpa [llEnsureAlloc, hb] using hf
    have hb : ((llEnsure s k).1.1 && (llEnsure s k).1.2) = false := by
      simp [h2]
    · refine ⟨?_, ?_, ?_⟩
      · simp only [llEnsureAlloc, hb, Bool.false_eq_true, if_false]
        exact llEnsure_fail_eq s k h2
      · simp [llEnsureAlloc, hb]
      · simp only [llEnsureAlloc, hb, Bool.false_eq_true, if_false]
        exact AllocState.count_fresh a ha
  · intro hf
    cases hb : (es.insert k).1 with
    | true => simp [etInsertAlloc, hb] at hf
    | false =>
      refine ⟨?_, ?_, ?_⟩
      · simp only [etInsertAlloc, hb, Bool.false_eq_true, if_false]
        exact EllenSet.insert_fail_eq es k hb
      · simp [etInsertAlloc, hb]
      · simp only [etInsertAlloc, hb, Bool.false_eq_true, if_false]
        exact AllocState.count_fresh a ha
  · intro hf
    have h2 : (es.ensure k).1.2 = false := by
      by_cases hb : ((es.ensure k).1.1 && (es.ensure k).1.2) = true <;>
        simpa [etEnsureAlloc, hb] using hf
    have hb : ((es.ensure k).1.1 && (es.ensure k).1.2) = false := by
      simp [h2]
    · refine ⟨?_, ?_, ?_⟩
      · simp only [etEnsureAlloc, hb, Bool.false_eq_true, if_false]
        exact EllenSet.ensure_fail_eq es k h2
      · simp [etEnsureAlloc, hb]
      · simp only [etEnsureAlloc, hb, Bool.false_eq_true, if_false]
        exact AllocState.count_fresh a ha
  · exact ⟨by simp [msqEnqueueAlloc, MSQueueM.enqueue],
      by simp [msqEnqueueAlloc, MSQueueM.enqueue]⟩
  · exact ⟨by simp [optEnqueueAlloc, OptQueueM.enqueue],
      by simp [optEnqueueAlloc, OptQueueM.enqueue]⟩

/-- Witness for C10: inserting the duplicate 5 into the one-element
containers frees the speculative node with id 0 exactly once and leaves
the containers unchanged. -/
theorem c10_failed_insert_frees_witness :
    (llInsertAlloc [5] 5 (⟨0, []⟩ : AllocState)).2.1 = [5]
    ∧ (llInsertAlloc [5] 5 (⟨0, []⟩ : AllocState)).2.2.freed.count 0 = 1
    ∧ (etEnsureAlloc (⟨some (.lf 5)⟩ : EllenSet Nat) 5
        (⟨0, []⟩ : AllocState)).2.1 = ⟨some (.lf 5)⟩ := by
  have h := c10_failed_insert_frees Nat [5] (⟨some (.lf 5)⟩ : EllenSet Nat)
    ⟨[]⟩ ⟨[]⟩ 5 0 (⟨0, []⟩ : AllocState) (by decide)
  exact ⟨(h.1 (by decide)).1, (h.1 (by decide)).2.2, (h.2.2.2.1 (by decide)).1⟩

end LibCds
